import Mathlib

/-!
Verification of the Truth Social feed ingestion/normalization engine
(`src/index.js`: the polling service, and the one-shot CSV export loop
appended in the same file).

Modelling conventions (shallow embedding):
* JavaScript strings are `List Char` (`JStr`); the falsy test `!s` on a string
  is `s = []` (only the empty string is falsy among strings that occur here).
* `Date.parse` / `new Date(s).getTime()` is an oracle parameter
  `dp : JStr → Option Int` giving epoch milliseconds, `none` standing for `NaN`
  (an invalid date).  All universal theorems hold for every such oracle; the
  concrete `dpEx` used in witnesses agrees with JavaScript on the strings it
  mentions.
* `new Date(s).toISOString()` throws a `RangeError` on an invalid date; code
  paths that execute it are therefore embedded in `Except`, and the
  re-serialized canonical ISO string is an oracle `toISO : Int → JStr`.
* A JavaScript `Map` is an insertion-ordered association list: `set` updates an
  existing key in place and appends a fresh key at the end, matching the
  iteration order of `Map.prototype.values()`.
* `Array.prototype.sort` with the source's comparator
  `(a, b) => new Date(a.t) - new Date(b.t)` is embedded as the stable insertion
  sort `jsSortBy`: an element is inserted before the first element the
  comparator places strictly after it (a comparator value that is `NaN` is
  treated as `+0` per `SortCompare`, i.e. no swap).
* ISO hour keys produced by `toHourKey` are represented by their epoch
  milliseconds (the `toISOString` rendering of a valid instant is an injective,
  strictly monotone encoding, so nothing about bucket identity, counts or
  ordering depends on the decimal rendering).
-/

namespace TS

abbrev JStr := List Char

/-- JavaScript `a || b` on strings (only `""` is falsy). -/
def strOr (a b : JStr) : JStr := if a = [] then b else a

/-- The canonical entity of `src/index.js`; a missing optional field is `""`. -/
structure Post where
  id : JStr
  timestamp : JStr
  url : JStr
  uri : JStr
  content : JStr
deriving DecidableEq, Repr

/-- JS `\w` character class (ASCII word character). -/
def isWordChar (c : Char) : Bool := c.isAlphanum || c = '_'

/-- `extractNumericId` (src/index.js:95-99): first match of the regex
`/\/(\d+)(?:\b|$)/` — a slash followed by a maximal digit run that is followed
by end-of-string or a non-word character; scanning resumes after a failed
candidate slash.  Returns `""` when there is no match (or the input is falsy). -/
def extractNumericId : JStr → JStr
  | [] => []
  | c :: rest =>
    if c = '/' then
      if rest.takeWhile Char.isDigit = [] then extractNumericId rest
      else
        match rest.drop (rest.takeWhile Char.isDigit).length with
        | [] => rest.takeWhile Char.isDigit
        | a :: _ =>
          if isWordChar a then extractNumericId rest
          else rest.takeWhile Char.isDigit
    else extractNumericId rest

/-- JS regex test `/^\d+$/.test s` (nonempty, all digits). -/
def isAllDigits (s : JStr) : Bool := !s.isEmpty && s.all Char.isDigit

/-- `canonicalId` (src/index.js:101-110): `direct` is `post.id` (the empty
string when falsy), and the four branches correspond to the source's
digits-only check, the two `extractNumericId` attempts, and the final
`direct || String(post.url || post.uri || "")` fallback. -/
def canonicalId (post : Post) : JStr :=
  if isAllDigits post.id then post.id
  else if extractNumericId post.id ≠ [] then extractNumericId post.id
  else if extractNumericId (strOr post.url post.uri) ≠ [] then
    extractNumericId (strOr post.url post.uri)
  else strOr post.id (strOr post.url post.uri)

/-- The merge body of `normalizePosts` (src/index.js:123-132): keep `existing`,
take the incoming timestamp exactly when it parses and is strictly later than
the existing one (an unparseable existing timestamp counts as `-infinity`),
and fill each empty optional field from the incoming record. -/
def mergePost (dp : JStr → Option Int) (existing incoming : Post) : Post :=
  let ts :=
    match dp incoming.timestamp, dp existing.timestamp with
    | some ti, some te => if te < ti then incoming.timestamp else existing.timestamp
    | some _, none => incoming.timestamp
    | none, _ => existing.timestamp
  { existing with
      timestamp := ts
      url := strOr existing.url incoming.url
      uri := strOr existing.uri incoming.uri
      content := strOr existing.content incoming.content }

/-- Lookup in an insertion-ordered association list (JS `Map.prototype.get`). -/
def getK {κ β : Type} [DecidableEq κ] (k : κ) : List (κ × β) → Option β
  | [] => none
  | (k', v) :: t => if k' = k then some v else getK k t

/-- Insert-or-update in an insertion-ordered association list
(JS `Map.prototype.set`): an existing key is updated in place, a fresh key is
appended at the end. -/
def setK {κ β : Type} [DecidableEq κ] (k : κ) (v : β) : List (κ × β) → List (κ × β)
  | [] => [(k, v)]
  | (k', v') :: t => if k' = k then (k, v) :: t else (k', v') :: setK k v t

/-- One iteration of the `for (const post of posts)` loop of `normalizePosts`
(src/index.js:114-133). -/
def byIdStep (dp : JStr → Option Int) (m : List (JStr × Post)) (post : Post) :
    List (JStr × Post) :=
  if canonicalId post = [] then m
  else
    match getK (canonicalId post) m with
    | none => setK (canonicalId post) { post with id := canonicalId post } m
    | some existing =>
      setK (canonicalId post) (mergePost dp existing { post with id := canonicalId post }) m

/-- The `byId` map after folding the whole input list. -/
def buildById (dp : JStr → Option Int) (posts : List Post) : List (JStr × Post) :=
  posts.foldl (byIdStep dp) []

/-- Stable insertion step for `Array.prototype.sort` with a JS comparator:
`x` is placed before the first `y` the comparator orders strictly after `x`. -/
def jsInsert {α : Type} (lt : α → α → Bool) (x : α) : List α → List α
  | [] => [x]
  | y :: t => if lt x y then x :: y :: t else y :: jsInsert lt x t

/-- Stable sort: elements are inserted left to right, each after all earlier
elements the comparator does not place strictly after it. -/
def jsSortBy {α : Type} (lt : α → α → Bool) (l : List α) : List α :=
  l.foldl (fun acc x => jsInsert lt x acc) []

/-- The comparator `(a, b) => new Date(a.timestamp) - new Date(b.timestamp)`
asks for a swap exactly when the difference is positive; a `NaN` difference
(either side unparseable) is treated as `+0`, i.e. never a swap. -/
def ltPost (dp : JStr → Option Int) (a b : Post) : Bool :=
  match dp a.timestamp, dp b.timestamp with
  | some x, some y => decide (x < y)
  | _, _ => false

/-- `normalizePosts` (src/index.js:112-135). -/
def normalizePosts (dp : JStr → Option Int) (posts : List Post) : List Post :=
  jsSortBy (ltPost dp) ((buildById dp posts).map Prod.snd)

/-- `toHourKey` (src/index.js:156-160) on a valid instant: truncate to the UTC
hour.  The hour is represented by its epoch milliseconds; on an invalid date
the source's `toISOString()` throws, surfaced here as `none`. -/
def toHourKey (dp : JStr → Option Int) (ts : JStr) : Option Int :=
  (dp ts).map fun t => t - t.emod 3600000

/-- An entry of the `hours` output of `computeHourly`. -/
structure Bucket where
  hour : Int
  count : Nat
deriving DecidableEq, Repr

/-- The bucket-accumulating loop of `computeHourly` (src/index.js:165-168);
`.error ()` is the `RangeError` thrown by `toHourKey` on an invalid date. -/
def hourlyGo (dp : JStr → Option Int) :
    List Post → List (Int × Nat) → Except Unit (List (Int × Nat))
  | [], m => .ok m
  | p :: rest, m =>
    match toHourKey dp p.timestamp with
    | none => .error ()
    | some h => hourlyGo dp rest (setK h ((getK h m).getD 0 + 1) m)

/-- Bucket comparator `(a, b) => new Date(a.hour) - new Date(b.hour)`: hour
keys are valid instants, so this is plain comparison of the instants. -/
def ltBucket (a b : Bucket) : Bool := decide (a.hour < b.hour)

/-- `computeHourly` (src/index.js:162-172). -/
def computeHourly (dp : JStr → Option Int) (posts : List Post) :
    Except Unit (List Bucket) :=
  (hourlyGo dp (normalizePosts dp posts) []).map fun m =>
    jsSortBy ltBucket (m.map fun e => ⟨e.1, e.2⟩)

/-- The comparison `new Date(post.timestamp) > new Date(latest.timestamp)`;
any `NaN` operand makes it false. -/
def jsGtTs (dp : JStr → Option Int) (a b : Post) : Bool :=
  match dp a.timestamp, dp b.timestamp with
  | some x, some y => decide (y < x)
  | _, _ => false

/-- The reducer of `computeLatest` (src/index.js:177-180). -/
def latestStep (dp : JStr → Option Int) (acc : Option Post) (p : Post) : Option Post :=
  match acc with
  | none => some p
  | some l => if jsGtTs dp p l then some p else some l

/-- `computeLatest` (src/index.js:174-181). -/
def computeLatest (dp : JStr → Option Int) (posts : List Post) : Option Post :=
  let n := normalizePosts dp posts
  if n.isEmpty then none else n.foldl (latestStep dp) none

/-- A loosely-typed element of the upstream JSON status array; `none` stands
for an absent (or non-string) field, which is falsy like `""`. -/
structure RawItem where
  created_at : Option JStr
  id : Option JStr
  url : Option JStr
  uri : Option JStr
  content : Option JStr
deriving DecidableEq, Repr

/-- Optional JS field read: absent behaves as the empty (falsy) string. -/
def fld (o : Option JStr) : JStr := o.getD []

/-- `parseStatusList` (src/index.js:79-93).  `payload = none` models a
non-array JSON value.  The source computes
`const iso = new Date(timestamp).toISOString()` *before* its
`Number.isNaN(Date.parse(iso))` guard, so an item whose `created_at` is
present but unparseable makes the decoder throw a `RangeError` (`.error ()`)
instead of being excluded; the guard itself is dead code but is kept here. -/
def parseStatusList (dp : JStr → Option Int) (toISO : Int → JStr)
    (payload : Option (List RawItem)) : Except Unit (List Post) :=
  match payload with
  | none => .ok []
  | some items => parseStatusListGo dp toISO items
where
  parseStatusListGo (dp : JStr → Option Int) (toISO : Int → JStr) :
      List RawItem → Except Unit (List Post)
  | [] => .ok []
  | item :: rest =>
    let timestamp := fld item.created_at
    let id := strOr (fld item.id) (strOr (fld item.url) (fld item.uri))
    let url := strOr (fld item.url) (fld item.uri)
    let content := fld item.content
    if timestamp = [] ∨ id = [] then parseStatusListGo dp toISO rest
    else
      match dp timestamp with
      | none => .error ()
      | some t =>
        let iso := toISO t
        if (dp iso).isNone then parseStatusListGo dp toISO rest
        else
          match parseStatusListGo dp toISO rest with
          | .error e => .error e
          | .ok tl => .ok ({ id := id, timestamp := iso, url := url, uri := [],
                             content := content } :: tl)

/-- `shouldFetchMore` (src/index.js:149-154): `Math.min` over the parsed
timestamps is `NaN` as soon as one of them is, and a `NaN` oldest stops
paging. -/
def shouldFetchMore (dp : JStr → Option Int) (now windowMs : Int)
    (items : List Post) : Bool :=
  match items with
  | [] => false
  | _ =>
    if items.any fun p => (dp p.timestamp).isNone then false
    else
      match (items.filterMap fun p => dp p.timestamp).min? with
      | none => false
      | some oldest => decide (now - oldest < windowMs)

/-- One HTTP response as seen by the server's `fetchStatusPages`; `payload` is
the result of `JSON.parse` on the body (`.error` = undecodable body, `none` =
a JSON value that is not an array), `linkNext` the parsed `rel="next"` target
of the `Link` header. -/
structure SrvResponse where
  status : Nat
  contentTypeJson : Bool
  payload : Except Unit (Option (List RawItem))
  linkNext : Option JStr
deriving Repr

/-- `response.ok`: status in the 2xx range. -/
def respOk (status : Nat) : Bool := decide (200 ≤ status) && decide (status < 300)

/-- `fetchStatusPages` (src/index.js:183-215), driven by a script of
responses (one per issued request).  Every non-ok status — including 429 —
throws `Feed request failed: <status>`; there is no backoff path here.
An exhausted script ends the run with the records collected so far. -/
def fetchStatusPages (dp : JStr → Option Int) (toISO : Int → JStr)
    (now windowMs : Int) (maxPages : Nat) :
    List SrvResponse → Nat → Bool → List Post → Except String (List Post)
  | _, _, false, collected => .ok collected
  | [], _, _, collected => .ok collected
  | r :: rest, page, true, collected =>
    if page < maxPages then
      if !respOk r.status then
        .error ("Feed request failed: " ++ toString r.status)
      else if !r.contentTypeJson then
        .error "Expected JSON response from Truth Social API"
      else
        match r.payload with
        | .error _ => .error "Failed to parse Truth Social JSON response"
        | .ok body =>
          match parseStatusList dp toISO body with
          | .error _ => .error "Invalid time value"
          | .ok items =>
            if items = [] then .ok collected
            else
              let collected := collected ++ items
              let hasNext := r.linkNext.isSome
              if !shouldFetchMore dp now windowMs collected then .ok collected
              else fetchStatusPages dp toISO now windowMs maxPages rest
                (page + 1) hasNext collected
    else .ok collected

/-! ### The one-shot CSV export loop (src/index.js:403-586)

The `while (pageUrl && page < maxPages)` loop is a state machine driven by one
HTTP response per issued request.  Delays are rationals (JS numbers); a `none`
configuration value stands for `NaN` from `parseInt`/`parseFloat` (the source
guards `backoffFactor` with `Number.isFinite` and `maxDelayMs` with
`Number.isNaN`, falling back to the defaults 1.5 and 15000).  CSV text
serialization (`csvEscape`, `stripHtml`) renders the row fields kept here and
is not modelled. -/

/-- The `reblog` wrapper of a status item. -/
structure CliReblog where
  url : Option JStr
  uri : Option JStr
  id : Option JStr
deriving DecidableEq, Repr

/-- A loosely-typed element of a CSV-export result page. -/
structure CliItem where
  id : Option JStr
  created_at : Option JStr
  url : Option JStr
  uri : Option JStr
  content : Option JStr
  reblog : Option CliReblog
deriving DecidableEq, Repr

/-- The data carried by one CSV row (src/index.js:558-568). -/
structure CliRow where
  id : JStr
  createdAt : JStr
  url : JStr
  isRetruth : Bool
  retruthOf : JStr
  contentHtml : JStr
deriving DecidableEq, Repr

/-- One response to a CSV-export request: the status, the parsed
`retry-after` header (`none` = `parseInt` returned `NaN`; a missing header is
parsed from `"0"` and gives `some 0`), the JSON body (`.error` = `json()`
threw, `none` = not an array), and the `rel="next"` link target. -/
structure CliResponse where
  status : Nat
  retryAfter : Option Int
  payload : Except Unit (Option (List CliItem))
  linkNext : Option JStr
deriving Repr

/-- Configuration of the export loop (src/index.js:422-428). -/
structure CliConfig where
  delayMs : ℚ
  backoffFactor : Option ℚ
  maxDelayMs : Option ℚ
  maxPages : Nat
  cutoffMs : Int
deriving Repr

/-- Mutable state of the export loop (src/index.js:505-508), plus the emitted
sleep durations and the `break` flag. -/
structure CliState where
  pageUrl : JStr
  page : Nat
  seenIds : List JStr
  currentDelay : ℚ
  rows : List CliRow
  sleeps : List ℚ
  done : Bool
deriving Repr

/-- `retryAfterMs` (src/index.js:520-522): `NaN` or a non-positive value give
0, otherwise seconds become milliseconds. -/
def retryAfterMs (ra : Option Int) : ℚ :=
  match ra with
  | none => 0
  | some v => if v ≤ 0 then 0 else (v * 1000 : ℚ)

/-- The effective backoff factor (`Number.isFinite` guard, default 1.5). -/
def cliFactor (cfg : CliConfig) : ℚ := cfg.backoffFactor.getD (3 / 2)

/-- The effective delay cap (`Number.isNaN` guard, default 15000). -/
def cliMaxDelay (cfg : CliConfig) : ℚ := cfg.maxDelayMs.getD 15000

/-- `withinRange` (src/index.js:510-514). -/
def withinRange (dp : JStr → Option Int) (cutoffMs : Int) (createdAt : Option JStr) : Bool :=
  match createdAt with
  | none => false
  | some s =>
    match dp s with
    | none => false
    | some t => decide (cutoffMs ≤ t)

/-- The `for (const item of payload)` body (src/index.js:542-569), folded over
a page: returns the updated `seenIds`, the appended rows, and `keepPaging`. -/
def cliItems (dp : JStr → Option Int) (cutoffMs : Int) :
    List CliItem → List JStr → List CliRow → Bool → List JStr × List CliRow × Bool
  | [], seen, rows, keep => (seen, rows, keep)
  | item :: rest, seen, rows, keep =>
    match item.id with
    | none => cliItems dp cutoffMs rest seen rows keep
    | some itemId =>
      if itemId ∈ seen then cliItems dp cutoffMs rest seen rows keep
      else
        let seen := itemId :: seen
        if !withinRange dp cutoffMs item.created_at then
          cliItems dp cutoffMs rest seen rows keep
        else
          let isRetruth := item.reblog.isSome
          let retruthOf :=
            match item.reblog with
            | none => []
            | some rb => strOr (fld rb.url) (strOr (fld rb.uri) (fld rb.id))
          let row : CliRow :=
            { id := itemId, createdAt := fld item.created_at,
              url := strOr (fld item.url) (fld item.uri),
              isRetruth := isRetruth, retruthOf := retruthOf,
              contentHtml := fld item.content }
          cliItems dp cutoffMs rest seen (rows ++ [row]) true

/-- One iteration of the export loop (src/index.js:516-581) on one response.
On 429 the loop sleeps `max(currentDelay, retryAfterMs)`, multiplies the delay
by the backoff factor (rounded up) capped at the maximum, and `continue`s with
the same `pageUrl`; any other non-ok status throws; on success the delay is
reset to its base value, the page counter advances, and the cursor moves to
the `rel="next"` link (`break` is recorded in `done`). -/
def cliStep (cfg : CliConfig) (dp : JStr → Option Int) (r : CliResponse)
    (st : CliState) : Except String CliState :=
  if !respOk r.status then
    if r.status = 429 then
      let waitMs := max st.currentDelay (retryAfterMs r.retryAfter)
      let nextDelay : ℚ := (⌈st.currentDelay * cliFactor cfg⌉ : ℤ)
      .ok { st with sleeps := st.sleeps ++ [waitMs],
                    currentDelay := min nextDelay (cliMaxDelay cfg) }
    else .error ("Request failed (" ++ toString r.status ++ ") for " ++ String.mk st.pageUrl)
  else
    let st := { st with page := st.page + 1, currentDelay := cfg.delayMs }
    match r.payload with
    | .error _ => .error "invalid json"
    | .ok none => .ok { st with done := true }
    | .ok (some []) => .ok { st with done := true }
    | .ok (some items) =>
      let (seen', rows', keep) := cliItems dp cfg.cutoffMs items st.seenIds st.rows false
      let st := { st with seenIds := seen', rows := rows',
                          pageUrl := r.linkNext.getD [] }
      if !keep then .ok { st with done := true }
      else if 0 < st.currentDelay then
        .ok { st with sleeps := st.sleeps ++ [st.currentDelay] }
      else .ok st

/-- The export loop driver: consumes one scripted response per request while
the loop condition `pageUrl && page < maxPages` holds and no `break` has
fired; an exhausted script ends the run. -/
def cliRun (cfg : CliConfig) (dp : JStr → Option Int) :
    List CliResponse → CliState → Except String CliState
  | [], st => .ok st
  | r :: rest, st =>
    if !st.done ∧ st.pageUrl ≠ [] ∧ st.page < cfg.maxPages then
      match cliStep cfg dp r st with
      | .error e => .error e
      | .ok st' => cliRun cfg dp rest st'
    else .ok st

/-- State owned by the poll scheduler: the persisted post set and the
`lastPollAt` instant. -/
structure SchedState where
  posts : List Post
  lastPollAt : Option Int
deriving DecidableEq, Repr

/-- One cycle of `pollFeed` (src/index.js:217-253) given the outcome of the
fetch phase: a thrown error is caught, logged (the returned flag) and nothing
else happens; a successful fetch merges a nonempty batch into the persisted
set, saves it, and records the poll instant. -/
def pollCycle (dp : JStr → Option Int) (fetchOutcome : Except String (List Post))
    (now : Int) (st : SchedState) : SchedState × Bool :=
  match fetchOutcome with
  | .error _ => (st, true)
  | .ok incoming =>
    let posts' := if incoming = [] then st.posts else normalizePosts dp (st.posts ++ incoming)
    ({ posts := posts', lastPollAt := some now }, false)

/-! ### Concrete oracle and inputs used by witnesses and counterexamples

`dpEx` agrees with JavaScript `Date.parse` on every string it mentions
(canonical ISO instants map to their epoch milliseconds, `"not-a-date"` is an
invalid date), and `toISOEx` is the matching canonical serialization. -/

/-- Shorthand for string literals as `JStr`. -/
def jstr (x : String) : JStr := x.data

/-- Concrete `Date.parse` oracle for witnesses. -/
def dpEx (s0 : JStr) : Option Int :=
  if s0 = jstr "2024-01-01T00:00:00.000Z" then some 1704067200000
  else if s0 = jstr "2024-01-01T00:05:00.000Z" then some 1704067500000
  else if s0 = jstr "2024-01-01T01:00:00.000Z" then some 1704070800000
  else none

/-- Concrete `toISOString` oracle for witnesses, inverse to `dpEx`. -/
def toISOEx (t : Int) : JStr :=
  if t = 1704067200000 then jstr "2024-01-01T00:00:00.000Z"
  else if t = 1704067500000 then jstr "2024-01-01T00:05:00.000Z"
  else if t = 1704070800000 then jstr "2024-01-01T01:00:00.000Z"
  else []

/-- Witness post: id `"1"`, instant 2024-01-01T00:00:00Z, url `"a"`. -/
def postA : Post :=
  { id := jstr "1", timestamp := jstr "2024-01-01T00:00:00.000Z",
    url := jstr "a", uri := [], content := [] }

/-- Counterexample post: same id and instant as `postA`, url `"b"`. -/
def postB : Post :=
  { id := jstr "1", timestamp := jstr "2024-01-01T00:00:00.000Z",
    url := jstr "b", uri := [], content := [] }

/-- Witness post: id `"1"`, five minutes after `postA`, no url. -/
def postA5 : Post :=
  { id := jstr "1", timestamp := jstr "2024-01-01T00:05:00.000Z",
    url := [], uri := [], content := [] }

/-- Witness post: id `"2"`, one hour after `postA`. -/
def postC : Post :=
  { id := jstr "2", timestamp := jstr "2024-01-01T01:00:00.000Z",
    url := [], uri := [], content := [] }

/-- Export-loop configuration used by the C2 witness (the CLI defaults). -/
def cfgEx : CliConfig :=
  { delayMs := 750, backoffFactor := some (3 / 2), maxDelayMs := some 15000,
    maxPages := 250, cutoffMs := 0 }

/-- Export-loop state used by the C2 witness. -/
def stEx : CliState :=
  { pageUrl := jstr "https://truthsocial.com/api/v1/page", page := 0,
    seenIds := [], currentDelay := 750, rows := [], sleeps := [], done := false }

/-- A 429 response carrying `Retry-After: 2`. -/
def resp429 : CliResponse :=
  { status := 429, retryAfter := some 2, payload := .ok (some []), linkNext := none }

/-- A 500 response. -/
def resp500 : CliResponse :=
  { status := 500, retryAfter := some 0, payload := .ok (some []), linkNext := none }

/-- An empty 200 JSON page. -/
def resp200 : CliResponse :=
  { status := 200, retryAfter := some 0, payload := .ok (some []), linkNext := none }

/-! ### Basic lemmas: `strOr` and association lists -/

theorem strOr_nil (b : JStr) : strOr [] b = b := rfl

theorem strOr_of_ne {a : JStr} (b : JStr) (h : a ≠ []) : strOr a b = a := by
  simp [strOr, h]

section AList

variable {κ β : Type} [DecidableEq κ]

theorem getK_setK_self (k : κ) (v : β) (m : List (κ × β)) :
    getK k (setK k v m) = some v := by
  induction m with
  | nil => simp [setK, getK]
  | cons e t ih =>
    obtain ⟨k', v'⟩ := e
    by_cases h : k' = k <;> simp [setK, getK, h, ih]

theorem getK_setK_ne {k k' : κ} (v : β) (m : List (κ × β)) (h : k' ≠ k) :
    getK k (setK k' v m) = getK k m := by
  induction m with
  | nil => simp [setK, getK, h]
  | cons e t ih =>
    obtain ⟨k₁, v₁⟩ := e
    by_cases h1 : k₁ = k'
    all_goals by_cases h2 : k₁ = k
    all_goals simp_all [setK, getK]

theorem mem_setK {kv : κ × β} {k : κ} {v : β} {m : List (κ × β)}
    (h : kv ∈ setK k v m) : kv = (k, v) ∨ kv ∈ m := by
  induction m with
  | nil => simpa [setK] using h
  | cons e t ih =>
    obtain ⟨k₁, v₁⟩ := e
    by_cases h1 : k₁ = k
    · simp only [setK, if_pos h1, List.mem_cons] at h
      rcases h with h | h
      · exact Or.inl h
      · exact Or.inr (List.mem_cons_of_mem _ h)
    · simp only [setK, if_neg h1, List.mem_cons] at h
      rcases h with h | h
      · exact Or.inr (by simp [h])
      · rcases ih h with h' | h'
        · exact Or.inl h'
        · exact Or.inr (List.mem_cons_of_mem _ h')

theorem setK_ne_nil (k : κ) (v : β) (m : List (κ × β)) : setK k v m ≠ [] := by
  cases m with
  | nil => simp [setK]
  | cons e t =>
    obtain ⟨k₁, v₁⟩ := e
    by_cases h : k₁ = k <;> simp [setK, h]

theorem mem_keys_setK {k' k : κ} (v : β) (m : List (κ × β)) :
    k' ∈ (setK k v m).map Prod.fst ↔ k' = k ∨ k' ∈ m.map Prod.fst := by
  induction m with
  | nil => simp [setK]
  | cons e t ih =>
    obtain ⟨k₁, v₁⟩ := e
    by_cases h : k₁ = k
    all_goals simp [setK, h, ih]
    all_goals tauto

theorem nodup_keys_setK {m : List (κ × β)} (k : κ) (v : β)
    (h : (m.map Prod.fst).Nodup) : ((setK k v m).map Prod.fst).Nodup := by
  induction m with
  | nil => simp [setK]
  | cons e t ih =>
    obtain ⟨k₁, v₁⟩ := e
    simp only [List.map_cons, List.nodup_cons] at h
    by_cases h1 : k₁ = k
    · subst h1
      simpa [setK] using h
    · simp only [setK, if_neg h1, List.map_cons, List.nodup_cons]
      refine ⟨fun hc => ?_, ih h.2⟩
      rcases (mem_keys_setK _ _).1 hc with h' | h'
      · exact h1 h'
      · exact h.1 h'

theorem getK_eq_none {k : κ} {m : List (κ × β)} :
    getK k m = none ↔ k ∉ m.map Prod.fst := by
  induction m with
  | nil => simp [getK]
  | cons e t ih =>
    obtain ⟨k₁, v₁⟩ := e
    by_cases h : k₁ = k
    · subst h
      simp [getK]
    · simp only [getK, if_neg h, List.map_cons, List.mem_cons, ih]
      constructor
      · rintro hk (rfl | hm)
        · exact h rfl
        · exact hk hm
      · intro hk hm
        exact hk (Or.inr hm)

theorem getK_mem {k : κ} {v : β} {m : List (κ × β)} (h : getK k m = some v) :
    (k, v) ∈ m := by
  induction m with
  | nil => simp [getK] at h
  | cons e t ih =>
    obtain ⟨k₁, v₁⟩ := e
    by_cases h1 : k₁ = k
    · subst h1
      simp only [getK, if_pos] at h
      injection h with h
      simp [h]
    · simp only [getK, if_neg h1] at h
      exact List.mem_cons_of_mem _ (ih h)

theorem mem_getK_of_nodup {k : κ} {v : β} {m : List (κ × β)}
    (hn : (m.map Prod.fst).Nodup) (h : (k, v) ∈ m) : getK k m = some v := by
  induction m with
  | nil => simp at h
  | cons e t ih =>
    obtain ⟨k₁, v₁⟩ := e
    simp only [List.map_cons, List.nodup_cons] at hn
    rcases List.mem_cons.1 h with h' | h'
    · injection h' with e1 e2
      subst e1
      subst e2
      simp [getK]
    · have hne : k₁ ≠ k := by
        rintro rfl
        exact hn.1 (List.mem_map_of_mem Prod.fst h')
      simp only [getK, if_neg hne]
      exact ih hn.2 h'

theorem setK_not_mem {k : κ} {m : List (κ × β)} (v : β)
    (h : k ∉ m.map Prod.fst) : setK k v m = m ++ [(k, v)] := by
  induction m with
  | nil => simp [setK]
  | cons e t ih =>
    obtain ⟨k₁, v₁⟩ := e
    simp only [List.map_cons, List.mem_cons] at h
    push_neg at h
    simp [setK, Ne.symm h.1, ih h.2]

theorem sum_setK_bump (h : κ) (m : List (κ × Nat)) :
    ((setK h ((getK h m).getD 0 + 1) m).map Prod.snd).sum
      = (m.map Prod.snd).sum + 1 := by
  induction m with
  | nil => simp [setK, getK]
  | cons e t ih =>
    obtain ⟨k₁, c₁⟩ := e
    by_cases h1 : k₁ = h
    · subst h1
      simp [setK, getK]
      omega
    · simp only [getK, if_neg h1, setK, List.map_cons, List.sum_cons]
      rw [ih]
      omega

theorem pos_setK_bump {h : κ} {m : List (κ × Nat)}
    (hpos : ∀ e ∈ m, 0 < e.2) :
    ∀ e ∈ setK h ((getK h m).getD 0 + 1) m, 0 < e.2 := by
  intro e he
  rcases mem_setK he with rfl | he'
  · simp
  · exact hpos _ he'

end AList

/-! ### The stable sort `jsSortBy`

`SortDone lt` is the postcondition of the sort: no element is one the
comparator would order strictly after a later element.  For arbitrary
comparators the sort permutes its input; for comparators satisfying the two
closure properties below the output satisfies `SortDone`, and a `SortDone`
list is a fixed point of the sort. -/

section Sorting

variable {α : Type} (lt : α → α → Bool)

/-- Postcondition of the stable sort: no visible inversion. -/
def SortDone (l : List α) : Prop := l.Pairwise fun a b => lt b a = false

theorem jsInsert_perm (x : α) (l : List α) :
    (jsInsert lt x l).Perm (x :: l) := by
  induction l with
  | nil => simp [jsInsert]
  | cons y t ih =>
    by_cases h : lt x y = true
    · simp [jsInsert, h]
    · simp only [jsInsert, if_neg h]
      exact (ih.cons y).trans (List.Perm.swap x y t)

theorem jsSortBy_foldl_perm :
    ∀ (l acc : List α), (l.foldl (fun a x => jsInsert lt x a) acc).Perm (acc ++ l) := by
  intro l
  induction l with
  | nil => simp
  | cons x t ih =>
    intro acc
    simp only [List.foldl_cons]
    refine (ih (jsInsert lt x acc)).trans ?_
    refine (List.Perm.append_right t ((jsInsert_perm lt x acc))).trans ?_
    exact List.perm_middle.symm

theorem jsSortBy_perm (l : List α) : (jsSortBy lt l).Perm l := by
  simpa using jsSortBy_foldl_perm lt l []

/-- Inserting an element the comparator never orders before an existing one
appends it at the end. -/
theorem jsInsert_of_forall {x : α} :
    ∀ {l : List α}, (∀ y ∈ l, lt x y = false) → jsInsert lt x l = l ++ [x] := by
  intro l
  induction l with
  | nil => simp [jsInsert]
  | cons y t ih =>
    intro h
    have hy : lt x y = false := h y (List.mem_cons_self y t)
    simp only [jsInsert, hy, Bool.false_eq_true, if_false, List.cons_append,
      List.cons.injEq, true_and]
    exact ih fun z hz => h z (List.mem_cons_of_mem _ hz)

theorem jsSortBy_foldl_of_done :
    ∀ (l acc : List α), SortDone lt (acc ++ l) →
      l.foldl (fun a x => jsInsert lt x a) acc = acc ++ l := by
  intro l
  induction l with
  | nil => simp
  | cons x t ih =>
    intro acc h
    have hx : ∀ y ∈ acc, lt x y = false := by
      intro y hy
      have := (List.pairwise_append.1 h).2.2
      exact this y hy x (List.mem_cons_self x t)
    simp only [List.foldl_cons]
    rw [jsInsert_of_forall lt hx]
    have h' : SortDone lt ((acc ++ [x]) ++ t) := by
      simpa [List.append_assoc] using h
    rw [ih (acc ++ [x]) h']
    simp

/-- A list with no visible inversion is a fixed point of the sort. -/
theorem jsSortBy_of_done {l : List α} (h : SortDone lt l) : jsSortBy lt l = l := by
  simpa using jsSortBy_foldl_of_done lt l [] (by simpa using h)

/-- A comparator is workable when it is asymmetric and when anything not
ordered before `b` is not ordered before anything the comparator places
before `b` either; both hold for the timestamp and hour comparators. -/
def CmpOk : Prop :=
  (∀ a b, lt a b = true → lt b a = false) ∧
    (∀ a b c, lt a b = true → lt c b = false → lt c a = false)

theorem jsInsert_done (hc : CmpOk lt) (x : α) :
    ∀ {l : List α}, SortDone lt l → SortDone lt (jsInsert lt x l) := by
  intro l
  induction l with
  | nil => simp [jsInsert, SortDone]
  | cons y t ih =>
    intro h
    have hyt := List.pairwise_cons.1 h
    by_cases hxy : lt x y = true
    · simp only [jsInsert, hxy, if_true]
      refine List.pairwise_cons.2 ⟨?_, h⟩
      intro z hz
      rcases List.mem_cons.1 hz with rfl | hz'
      · exact hc.1 x z hxy
      · exact hc.2 x y z hxy (hyt.1 z hz')
    · simp only [jsInsert, hxy, if_false]
      refine List.pairwise_cons.2 ⟨?_, ih hyt.2⟩
      intro z hz
      have := (jsInsert_perm lt x t).mem_iff.1 hz
      rcases List.mem_cons.1 this with rfl | hz'
      · simpa using hxy
      · exact hyt.1 z hz'

theorem jsSortBy_foldl_done (hc : CmpOk lt) :
    ∀ (l acc : List α), SortDone lt acc →
      SortDone lt (l.foldl (fun a x => jsInsert lt x a) acc) := by
  intro l
  induction l with
  | nil => intro acc h; simpa using h
  | cons x t ih =>
    intro acc h
    simp only [List.foldl_cons]
    exact ih _ (jsInsert_done lt hc x h)

theorem jsSortBy_done (hc : CmpOk lt) (l : List α) : SortDone lt (jsSortBy lt l) :=
  jsSortBy_foldl_done lt hc l [] (by simp [SortDone])

/-- The sort is idempotent (for any comparator satisfying `CmpOk`). -/
theorem jsSortBy_idem (hc : CmpOk lt) (l : List α) :
    jsSortBy lt (jsSortBy lt l) = jsSortBy lt l :=
  jsSortBy_of_done lt (jsSortBy_done lt hc l)

end Sorting

/-- The timestamp comparator satisfies the closure properties. -/
theorem cmpOk_ltPost (dp : JStr → Option Int) : CmpOk (ltPost dp) := by
  constructor
  · intro a b h
    unfold ltPost at h ⊢
    cases ha : dp a.timestamp with
    | none => simp [ha] at h
    | some x =>
      cases hb : dp b.timestamp with
      | none => simp [ha, hb] at h
      | some y =>
        simp [ha, hb] at h ⊢
        omega
  · intro a b c h1 h2
    unfold ltPost at h1 h2 ⊢
    cases ha : dp a.timestamp with
    | none => simp
    | some x =>
      cases hb : dp b.timestamp with
      | none => simp [ha, hb] at h1
      | some y =>
        cases hcc : dp c.timestamp with
        | none => simp [hcc]
        | some z =>
          simp [ha, hb, hcc] at h1 h2 ⊢
          omega

/-- The hour-bucket comparator satisfies the closure properties. -/
theorem cmpOk_ltBucket : CmpOk ltBucket := by
  constructor
  · intro a b h
    simp [ltBucket] at h ⊢
    omega
  · intro a b c h1 h2
    simp [ltBucket] at h1 h2 ⊢
    omega

/-! ### Identity canonicalization -/

theorem strOr_eq_nil {a b : JStr} : strOr a b = [] ↔ a = [] ∧ b = [] := by
  by_cases h : a = []
  · simp [strOr, h]
  · simp [strOr, h]

theorem isAllDigits_takeWhile {l : JStr} (h : l.takeWhile Char.isDigit ≠ []) :
    isAllDigits (l.takeWhile Char.isDigit) = true := by
  have hne : (l.takeWhile Char.isDigit).isEmpty = false := by
    cases hh : l.takeWhile Char.isDigit
    · exact absurd hh h
    · rfl
  simp only [isAllDigits, hne, Bool.not_false, Bool.true_and, List.all_eq_true]
  intro c hc
  exact List.mem_takeWhile_imp hc

/-- A nonempty `extractNumericId` result is a nonempty digit string. -/
theorem extract_all_digits : ∀ s : JStr, extractNumericId s ≠ [] →
    isAllDigits (extractNumericId s) = true := by
  intro s
  induction s with
  | nil => intro h; simp [extractNumericId] at h
  | cons c rest ih =>
    intro h
    by_cases hc : c = '/'
    · subst hc
      by_cases hrun : rest.takeWhile Char.isDigit = []
      · rw [show extractNumericId ('/' :: rest) = extractNumericId rest by
          simp [extractNumericId, hrun]] at h ⊢
        exact ih h
      · cases hd : rest.drop (rest.takeWhile Char.isDigit).length with
        | nil =>
          rw [show extractNumericId ('/' :: rest) = rest.takeWhile Char.isDigit by
            simp [extractNumericId, hrun, hd]] at h ⊢
          exact isAllDigits_takeWhile hrun
        | cons a t =>
          have he : extractNumericId ('/' :: rest)
              = if isWordChar a then extractNumericId rest
                else rest.takeWhile Char.isDigit := by
            simp [extractNumericId, hrun, hd]
          by_cases hw : isWordChar a = true
          · rw [he, if_pos hw] at h ⊢
            exact ih h
          · rw [he, if_neg hw] at h ⊢
            exact isAllDigits_takeWhile hrun
    · rw [show extractNumericId (c :: rest) = extractNumericId rest by
        simp [extractNumericId, hc]] at h ⊢
      exact ih h

/-- Either `canonicalId p` is a nonempty digit string (the first three
branches), or it came from the fallback branch, whose side conditions are
recorded. -/
theorem canonicalId_cases (p : Post) :
    isAllDigits (canonicalId p) = true ∨
      (isAllDigits p.id = false ∧ extractNumericId p.id = [] ∧
        extractNumericId (strOr p.url p.uri) = [] ∧
        canonicalId p = strOr p.id (strOr p.url p.uri)) := by
  by_cases h1 : isAllDigits p.id = true
  · left
    simp [canonicalId, h1]
  · by_cases h2 : extractNumericId p.id = []
    · by_cases h3 : extractNumericId (strOr p.url p.uri) = []
      · right
        exact ⟨by simpa using h1, h2, h3, by simp [canonicalId, h1, h2, h3]⟩
      · left
        rw [show canonicalId p = extractNumericId (strOr p.url p.uri) by
          simp [canonicalId, h1, h2, h3]]
        exact extract_all_digits _ h3
    · left
      rw [show canonicalId p = extractNumericId p.id by simp [canonicalId, h1, h2]]
      exact extract_all_digits _ h2

/-- In the fallback case the canonical id itself has no extractable digits. -/
theorem extract_canonical_fallback {p : Post}
    (h2 : extractNumericId p.id = [])
    (h3 : extractNumericId (strOr p.url p.uri) = []) :
    extractNumericId (strOr p.id (strOr p.url p.uri)) = [] := by
  by_cases hpid : p.id = []
  · rw [hpid, strOr_nil]
    exact h3
  · rw [strOr_of_ne _ hpid]
    exact h2

/-- Re-canonicalizing a record whose id field is already canonical (with the
same `url`/`uri`) is the identity; shared by the C5 and C10 developments. -/
theorem canonicalId_update (p : Post) :
    canonicalId { p with id := canonicalId p } = canonicalId p := by
  have key : canonicalId { p with id := canonicalId p }
      = (if isAllDigits (canonicalId p) = true then canonicalId p
        else if extractNumericId (canonicalId p) ≠ [] then extractNumericId (canonicalId p)
        else if extractNumericId (strOr p.url p.uri) ≠ [] then
          extractNumericId (strOr p.url p.uri)
        else strOr (canonicalId p) (strOr p.url p.uri)) := rfl
  rw [key]
  by_cases hd : isAllDigits (canonicalId p) = true
  · rw [if_pos hd]
  · rcases canonicalId_cases p with h | ⟨h1, h2, h3, h4⟩
    · exact absurd h hd
    · have hextc : extractNumericId (canonicalId p) = [] := by
        rw [h4]
        exact extract_canonical_fallback h2 h3
      rw [if_neg hd, if_neg (by simp [hextc]), if_neg (by simp [h3])]
      by_cases hc : canonicalId p = []
      · rw [h4] at hc
        obtain ⟨hida, hXa⟩ := strOr_eq_nil.1 hc
        rw [h4, hida, strOr_nil, hXa, strOr_nil]
      · exact strOr_of_ne _ hc

/-- The invariant carried by every entry of the `byId` map: the stored record
has the key as its id, and a non-digits key came from a fallback whose side
conditions continue to hold for the stored record's `url`/`uri`. -/
def Stable (k : JStr) (v : Post) : Prop :=
  v.id = k ∧ (isAllDigits k = true ∨
    (extractNumericId k = [] ∧ extractNumericId (strOr v.url v.uri) = []))

theorem canonicalId_of_stable {k : JStr} {v : Post} (hk : k ≠ []) (h : Stable k v) :
    canonicalId v = k := by
  obtain ⟨hid, hrest⟩ := h
  by_cases hd : isAllDigits k = true
  · simp [canonicalId, hid, hd]
  · rcases hrest with h | ⟨h1, h2⟩
    · exact absurd h hd
    · have hd' : isAllDigits k = false := by simpa using hd
      simp [canonicalId, hid, hd', h1, h2, strOr_of_ne _ hk]

theorem stable_update {p : Post} {k : JStr} (hc : canonicalId p = k) :
    Stable k { p with id := k } := by
  refine ⟨rfl, ?_⟩
  by_cases hd : isAllDigits k = true
  · exact Or.inl hd
  · rcases canonicalId_cases p with h | ⟨h1, h2, h3, h4⟩
    · rw [hc] at h
      exact absurd h hd
    · right
      refine ⟨?_, by simpa using h3⟩
      rw [← hc, h4]
      exact extract_canonical_fallback h2 h3

/-- Fill-if-empty on both optional fields preserves "no extractable digits in
`url || uri`" when both sides satisfy it. -/
theorem strOr_merge_extract {eu ei nu ni : JStr}
    (he : extractNumericId (strOr eu ei) = [])
    (hn : extractNumericId (strOr nu ni) = []) :
    extractNumericId (strOr (strOr eu nu) (strOr ei ni)) = [] := by
  by_cases h1 : eu = []
  · subst h1
    simp only [strOr_nil] at he ⊢
    by_cases h2 : nu = []
    · subst h2
      simp only [strOr_nil] at hn ⊢
      by_cases h3 : ei = []
      · subst h3
        simpa only [strOr_nil] using hn
      · rwa [strOr_of_ne _ h3]
    · rw [strOr_of_ne _ h2]
      rwa [strOr_of_ne _ h2] at hn
  · rw [strOr_of_ne _ h1, strOr_of_ne _ h1]
    rwa [strOr_of_ne _ h1] at he

theorem stable_merge {k : JStr} {e n : Post} (dp : JStr → Option Int)
    (he : Stable k e) (hn : Stable k n) : Stable k (mergePost dp e n) := by
  obtain ⟨heid, herest⟩ := he
  obtain ⟨hnid, hnrest⟩ := hn
  refine ⟨by simp [mergePost, heid], ?_⟩
  by_cases hd : isAllDigits k = true
  · exact Or.inl hd
  · rcases herest with h | ⟨h1, h2⟩
    · exact absurd h hd
    rcases hnrest with h | ⟨h1', h2'⟩
    · exact absurd h hd
    right
    refine ⟨h1, ?_⟩
    have hu : (mergePost dp e n).url = strOr e.url n.url := by simp [mergePost]
    have hi : (mergePost dp e n).uri = strOr e.uri n.uri := by simp [mergePost]
    rw [hu, hi]
    exact strOr_merge_extract h2 h2'

/-! ### Invariants of the `byId` map -/

/-- Every entry of the map has a nonempty key and satisfies `Stable`. -/
def EntryOk (kv : JStr × Post) : Prop := kv.1 ≠ [] ∧ Stable kv.1 kv.2

theorem byIdStep_entryOk {dp : JStr → Option Int} {m : List (JStr × Post)} (p : Post)
    (hm : ∀ kv ∈ m, EntryOk kv) : ∀ kv ∈ byIdStep dp m p, EntryOk kv := by
  intro kv hkv
  by_cases hk : canonicalId p = []
  · rw [byIdStep, if_pos hk] at hkv
    exact hm kv hkv
  · cases hg : getK (canonicalId p) m with
    | none =>
      rw [byIdStep, if_neg hk, hg] at hkv
      rcases mem_setK hkv with rfl | hkv'
      · exact ⟨hk, stable_update rfl⟩
      · exact hm kv hkv'
    | some e =>
      rw [byIdStep, if_neg hk, hg] at hkv
      rcases mem_setK hkv with rfl | hkv'
      · exact ⟨hk, stable_merge dp (hm _ (getK_mem hg)).2 (stable_update rfl)⟩
      · exact hm kv hkv'

theorem foldl_byIdStep_entryOk (dp : JStr → Option Int) :
    ∀ (l : List Post) (m : List (JStr × Post)),
      (∀ kv ∈ m, EntryOk kv) → ∀ kv ∈ l.foldl (byIdStep dp) m, EntryOk kv := by
  intro l
  induction l with
  | nil => intro m hm kv hkv; exact hm kv hkv
  | cons p t ih =>
    intro m hm kv hkv
    exact ih (byIdStep dp m p) (byIdStep_entryOk p hm) kv hkv

theorem build_entryOk (dp : JStr → Option Int) (l : List Post) :
    ∀ kv ∈ buildById dp l, EntryOk kv :=
  foldl_byIdStep_entryOk dp l [] (by simp)

theorem byIdStep_nodup {dp : JStr → Option Int} {m : List (JStr × Post)} (p : Post)
    (h : (m.map Prod.fst).Nodup) : ((byIdStep dp m p).map Prod.fst).Nodup := by
  by_cases hk : canonicalId p = []
  · rwa [byIdStep, if_pos hk]
  · cases hg : getK (canonicalId p) m with
    | none =>
      rw [byIdStep, if_neg hk, hg]
      exact nodup_keys_setK _ _ h
    | some e =>
      rw [byIdStep, if_neg hk, hg]
      exact nodup_keys_setK _ _ h

theorem build_nodup (dp : JStr → Option Int) (l : List Post) :
    ((buildById dp l).map Prod.fst).Nodup := by
  suffices h : ∀ (l : List Post) (m : List (JStr × Post)), (m.map Prod.fst).Nodup →
      ((l.foldl (byIdStep dp) m).map Prod.fst).Nodup from h l [] (by simp)
  intro l
  induction l with
  | nil => intro m hm; exact hm
  | cons p t ih => intro m hm; exact ih (byIdStep dp m p) (byIdStep_nodup p hm)

/-- On a map whose entries are `Stable`, the stored records' ids are exactly
the keys, in order. -/
theorem values_id_eq_keys {m : List (JStr × Post)} (h : ∀ kv ∈ m, EntryOk kv) :
    (m.map Prod.snd).map Post.id = m.map Prod.fst := by
  induction m with
  | nil => simp
  | cons kv t ih =>
    simp only [List.map_cons, List.cons.injEq]
    refine ⟨(h kv (List.mem_cons_self kv t)).2.1, ?_⟩
    exact ih fun kv' hkv' => h kv' (List.mem_cons_of_mem _ hkv')

/-- A record equals itself with its id overwritten by its own id. -/
theorem post_eta (r : Post) : ({ r with id := r.id } : Post) = r := rfl

/-- Folding records that are already canonical (id = canonical id, nonempty,
pairwise distinct, none colliding with the accumulated map) just appends them
as fresh entries, in order. -/
theorem foldl_byIdStep_of_canonical (dp : JStr → Option Int) :
    ∀ (L : List Post) (m : List (JStr × Post)),
      (∀ r ∈ L, canonicalId r = r.id ∧ r.id ≠ []) →
      (∀ r ∈ L, r.id ∉ m.map Prod.fst) →
      (L.map Post.id).Nodup →
      L.foldl (byIdStep dp) m = m ++ L.map fun r => (r.id, r) := by
  intro L
  induction L with
  | nil => intro m _ _ _; simp
  | cons r t ih =>
    intro m hcan hmem hnodup
    obtain ⟨hc, hne⟩ := hcan r (List.mem_cons_self r t)
    have hnodup' : r.id ∉ t.map Post.id ∧ (t.map Post.id).Nodup := by
      rw [List.map_cons, List.nodup_cons] at hnodup
      exact hnodup
    have hstep : byIdStep dp m r = m ++ [(r.id, r)] := by
      have hget : getK r.id m = none :=
        getK_eq_none.2 (hmem r (List.mem_cons_self r t))
      rw [byIdStep, if_neg (hc ▸ hne), hc, hget, setK_not_mem _ (hmem r (List.mem_cons_self r t))]
    simp only [List.foldl_cons, hstep]
    rw [ih (m ++ [(r.id, r)]) (fun q hq => hcan q (List.mem_cons_of_mem _ hq))
      ?_ hnodup'.2]
    · simp
    · intro q hq
      simp only [List.map_append, List.map_cons, List.map_nil, List.mem_append,
        List.mem_singleton]
      rintro (hq' | hq')
      · exact hmem q (List.mem_cons_of_mem _ hq) hq'
      · exact hnodup'.1 (hq' ▸ List.mem_map_of_mem Post.id hq)

/-- Every record of `normalizePosts dp xs` is a stored value of the map:
it is canonical (its canonical id is its id), its id is nonempty, and the ids
are pairwise distinct. -/
theorem normalizePosts_canonical (dp : JStr → Option Int) (xs : List Post) :
    (∀ r ∈ normalizePosts dp xs, canonicalId r = r.id ∧ r.id ≠ []) ∧
      ((normalizePosts dp xs).map Post.id).Nodup := by
  have hperm : (normalizePosts dp xs).Perm ((buildById dp xs).map Prod.snd) :=
    jsSortBy_perm _ _
  have hok := build_entryOk dp xs
  constructor
  · intro r hr
    have hrv : r ∈ (buildById dp xs).map Prod.snd := hperm.mem_iff.1 hr
    obtain ⟨kv, hkv, hkveq⟩ := List.mem_map.1 hrv
    obtain ⟨hne, hst⟩ := hok kv hkv
    subst hkveq
    exact ⟨(hst.1).symm ▸ canonicalId_of_stable hne hst, hst.1 ▸ hne⟩
  · have : ((buildById dp xs).map Prod.snd).map Post.id = (buildById dp xs).map Prod.fst :=
      values_id_eq_keys hok
    exact ((hperm.map Post.id).nodup_iff).2 (this ▸ build_nodup dp xs)

/-! ### Claims C10 and C5 -/

/-- C10: `normalizePosts` is idempotent: re-normalizing an already-normalized
set (as the `/posts` and read endpoints do on every request over the persisted
set) changes neither the records, their canonical ids, nor their order — for
every input list and every `Date.parse` oracle. -/
theorem C10_normalizePosts_idempotent (dp : JStr → Option Int) (xs : List Post) :
    normalizePosts dp (normalizePosts dp xs) = normalizePosts dp xs := by
  obtain ⟨hcan, hnodup⟩ := normalizePosts_canonical dp xs
  have hbuild : buildById dp (normalizePosts dp xs)
      = (normalizePosts dp xs).map fun r => (r.id, r) :=
    foldl_byIdStep_of_canonical dp _ [] hcan (by simp) hnodup
  have hvals : ((normalizePosts dp xs).map fun r => (r.id, r)).map Prod.snd
      = normalizePosts dp xs := by
    rw [List.map_map]
    exact List.map_id _
  have h1 : normalizePosts dp (normalizePosts dp xs)
      = jsSortBy (ltPost dp) (normalizePosts dp xs) := by
    rw [normalizePosts, hbuild, hvals]
  rw [h1, normalizePosts]
  exact jsSortBy_idem _ (cmpOk_ltPost dp) _

/-- C5: identity canonicalization is idempotent: re-canonicalizing a record
whose id field is `canonicalId p` (with the same `url`/`uri`) returns the same
string, and a digits-only id is returned unchanged. -/
theorem C5_canonicalId_idempotent (p : Post) :
    canonicalId { p with id := canonicalId p } = canonicalId p ∧
      (isAllDigits p.id = true → canonicalId p = p.id) :=
  ⟨canonicalId_update p, fun h => by simp [canonicalId, h]⟩

/-- Witness for C5 at the digits-only post `postA` (id `"1"`). -/
theorem C5_witness :
    canonicalId { postA with id := canonicalId postA } = canonicalId postA ∧
      canonicalId postA = postA.id :=
  ⟨(C5_canonicalId_idempotent postA).1, (C5_canonicalId_idempotent postA).2 (by decide)⟩

/-! ### Two-record merges: claims C4 and C7 -/

/-- Normalizing two records that share a (nonempty) canonical id produces
exactly the merge of the two normalized records. -/
theorem normalizePosts_pair (dp : JStr → Option Int) (a b : Post)
    (hk : canonicalId b = canonicalId a) (hne : canonicalId a ≠ []) :
    normalizePosts dp [a, b]
      = [mergePost dp { a with id := canonicalId a } { b with id := canonicalId a }] := by
  have h1 : byIdStep dp [] a = [(canonicalId a, { a with id := canonicalId a })] := by
    rw [byIdStep, if_neg hne]
    rfl
  have h2 : byIdStep dp [(canonicalId a, { a with id := canonicalId a })] b
      = [(canonicalId a,
          mergePost dp { a with id := canonicalId a } { b with id := canonicalId a })] := by
    rw [byIdStep, hk, if_neg hne]
    have hg : getK (canonicalId a) [(canonicalId a, { a with id := canonicalId a })]
        = some { a with id := canonicalId a } := by simp [getK]
    rw [hg]
    simp [setK]
  show jsSortBy (ltPost dp) (([a, b].foldl (byIdStep dp) []).map Prod.snd) = _
  rw [List.foldl_cons, List.foldl_cons, List.foldl_nil, h1, h2]
  rfl

/-- C4: merge is monotonic on timestamp: when two records share a canonical id
and both timestamps parse, with instants `t1 < t2`, the merged record keeps
the later timestamp in either processing order — never the earlier one. -/
theorem C4_merge_timestamp_monotonic (dp : JStr → Option Int) (a b : Post) (t1 t2 : Int)
    (hk : canonicalId a = canonicalId b) (hne : canonicalId a ≠ [])
    (h1 : dp a.timestamp = some t1) (h2 : dp b.timestamp = some t2) (hlt : t1 < t2) :
    (normalizePosts dp [a, b]).map Post.timestamp = [b.timestamp] ∧
      (normalizePosts dp [b, a]).map Post.timestamp = [b.timestamp] := by
  constructor
  · rw [normalizePosts_pair dp a b hk.symm hne]
    simp [mergePost, h1, h2, hlt]
  · rw [normalizePosts_pair dp b a hk (hk ▸ hne)]
    simp [mergePost, h1, h2, not_lt.2 (le_of_lt hlt)]

/-- Witness for C4: the two records with id `"1"` five minutes apart, in both
orders, keep the later instant. -/
theorem C4_witness :
    (normalizePosts dpEx [postA, postA5]).map Post.timestamp = [postA5.timestamp] ∧
      (normalizePosts dpEx [postA5, postA]).map Post.timestamp = [postA5.timestamp] :=
  C4_merge_timestamp_monotonic dpEx postA postA5 1704067200000 1704067500000
    (by decide) (by decide) (by decide) (by decide) (by decide)

/-- C7: for two records sharing a canonical id, each optional field of the
merged record is the retained record's field when nonempty and is filled from
the incoming record when empty — never overwritten once non-empty — and the
id (the only other field not governed by the timestamp rule) is unchanged. -/
theorem C7_merge_optional_fields (dp : JStr → Option Int) (a b : Post)
    (hk : canonicalId a = canonicalId b) (hne : canonicalId a ≠ []) :
    ∃ m, normalizePosts dp [a, b] = [m] ∧
      m.url = (if a.url = [] then b.url else a.url) ∧
      m.uri = (if a.uri = [] then b.uri else a.uri) ∧
      m.content = (if a.content = [] then b.content else a.content) ∧
      m.id = canonicalId a := by
  refine ⟨_, normalizePosts_pair dp a b hk.symm hne, ?_, ?_, ?_, ?_⟩
  all_goals simp [mergePost, strOr]

/-- Witness for C7 at two colliding concrete records with different urls. -/
theorem C7_witness :
    ∃ m, normalizePosts dpEx [postA, postB] = [m] ∧
      m.url = (if postA.url = [] then postB.url else postA.url) ∧
      m.uri = (if postA.uri = [] then postB.uri else postA.uri) ∧
      m.content = (if postA.content = [] then postB.content else postA.content) ∧
      m.id = canonicalId postA :=
  C7_merge_optional_fields dpEx postA postB (by decide) (by decide)

/-! ### Claim C9 -/

/-- C9: a poll cycle whose fetch phase raises a transport or format error
logs the error (the `true` flag) and leaves the scheduler state — persisted
posts and last-poll time — exactly as it was: no save, no partial merge. -/
theorem C9_pollCycle_error_preserves_state (dp : JStr → Option Int) (e : String)
    (now : Int) (st : SchedState) :
    pollCycle dp (.error e) now st = (st, true) := rfl

/-! ### Claim C3: order and grouping of the identity-keyed reduction -/

/-- The effect of one record on the map entry at key `k`: records with another
canonical id leave it alone, the first record with id `k` becomes the entry,
later ones are merged into it (the per-key residue of `byIdStep`). -/
def chainStep (dp : JStr → Option Int) (k : JStr) (acc : Option Post) (p : Post) :
    Option Post :=
  if canonicalId p = k then
    some (acc.elim { p with id := k } fun e => mergePost dp e { p with id := k })
  else acc

theorem getK_foldl_byIdStep (dp : JStr → Option Int) {k : JStr} (hk : k ≠ []) :
    ∀ (l : List Post) (m : List (JStr × Post)),
      getK k (l.foldl (byIdStep dp) m) = l.foldl (chainStep dp k) (getK k m) := by
  intro l
  induction l with
  | nil => intro m; rfl
  | cons p t ih =>
    intro m
    rw [List.foldl_cons, List.foldl_cons, ih]
    congr 1
    by_cases hc : canonicalId p = []
    · rw [byIdStep, if_pos hc, chainStep, if_neg (by rw [hc]; exact fun h => hk h.symm)]
    · by_cases hck : canonicalId p = k
      · rw [byIdStep, if_neg hc, chainStep, if_pos hck, hck]
        cases hg : getK k m with
        | none => exact getK_setK_self _ _ _
        | some e => exact getK_setK_self _ _ _
      · rw [byIdStep, if_neg hc, chainStep, if_neg hck]
        cases hg : getK (canonicalId p) m with
        | none => exact getK_setK_ne _ _ hck
        | some e => exact getK_setK_ne _ _ hck

theorem chainStep_filter (dp : JStr → Option Int) (k : JStr) :
    ∀ (l : List Post) (acc : Option Post),
      l.foldl (chainStep dp k) acc
        = (l.filter fun p => decide (canonicalId p = k)).foldl (chainStep dp k) acc := by
  intro l
  induction l with
  | nil => intro acc; rfl
  | cons p t ih =>
    intro acc
    by_cases hc : canonicalId p = k
    · rw [List.foldl_cons, List.filter_cons_of_pos (by simpa using hc), List.foldl_cons, ih]
    · have hstep : chainStep dp k acc p = acc := by rw [chainStep, if_neg hc]
      rw [List.foldl_cons, hstep, List.filter_cons_of_neg (by simpa using hc), ih]

/-- On a well-formed map, filtering the stored values by canonical id `k`
yields the entry at `k` (or nothing). -/
theorem filter_values_getK (k : JStr) (hk : k ≠ []) :
    ∀ m : List (JStr × Post), (∀ kv ∈ m, EntryOk kv) → (m.map Prod.fst).Nodup →
      (m.map Prod.snd).filter (fun p => decide (canonicalId p = k))
        = (getK k m).toList := by
  intro m
  induction m with
  | nil => intro _ _; rfl
  | cons kv t ih =>
    intro hok hn
    obtain ⟨k₁, v₁⟩ := kv
    have hok₁ := hok (k₁, v₁) (List.mem_cons_self _ _)
    have hcan₁ : canonicalId v₁ = k₁ := canonicalId_of_stable hok₁.1 hok₁.2
    simp only [List.map_cons, List.nodup_cons] at hn
    have htail := ih (fun kv' h => hok kv' (List.mem_cons_of_mem _ h)) hn.2
    by_cases he : k₁ = k
    · subst he
      rw [List.map_cons, List.filter_cons_of_pos (by simp [hcan₁]), htail,
        getK_eq_none.2 hn.1,
        show getK k₁ ((k₁, v₁) :: t) = some v₁ from by simp [getK]]
      rfl
    · rw [List.map_cons, List.filter_cons_of_neg (by simp [hcan₁, he]), htail,
        show getK k ((k₁, v₁) :: t) = getK k t from by simp [getK, he]]

/-- Two well-formed maps with the same lookups are permutations of each
other. -/
theorem alist_perm_of_getK {m₁ m₂ : List (JStr × Post)}
    (h₁ : (m₁.map Prod.fst).Nodup) (h₂ : (m₂.map Prod.fst).Nodup)
    (hget : ∀ k, getK k m₁ = getK k m₂) : m₁.Perm m₂ := by
  rw [List.perm_ext_iff_of_nodup h₁.of_map h₂.of_map]
  intro kv
  obtain ⟨k, v⟩ := kv
  constructor
  · intro h
    exact getK_mem ((hget k) ▸ mem_getK_of_nodup h₁ h)
  · intro h
    exact getK_mem ((hget k).symm ▸ mem_getK_of_nodup h₂ h)

/-- The map never stores an empty key. -/
theorem build_keys_ne_nil (dp : JStr → Option Int) (l : List Post) :
    ([] : JStr) ∉ (buildById dp l).map Prod.fst := by
  intro hmem
  obtain ⟨kv, hkv, hfst⟩ := List.mem_map.1 hmem
  exact (build_entryOk dp l kv hkv).1 hfst

/-- Pre-normalizing a prefix does not change any map entry of the final
reduction. -/
theorem getK_build_normalize (dp : JStr → Option Int) (xs : List Post) {k : JStr}
    (hk : k ≠ []) :
    getK k (buildById dp (normalizePosts dp xs)) = getK k (buildById dp xs) := by
  have hok := build_entryOk dp xs
  have hnix := build_nodup dp xs
  have hperm : (normalizePosts dp xs).Perm ((buildById dp xs).map Prod.snd) :=
    jsSortBy_perm _ _
  have hfv := filter_values_getK k hk (buildById dp xs) hok hnix
  have hp := hperm.filter (fun p => decide (canonicalId p = k))
  rw [hfv] at hp
  have hmain : getK k (buildById dp (normalizePosts dp xs))
      = (normalizePosts dp xs).foldl (chainStep dp k) none := by
    rw [buildById, getK_foldl_byIdStep dp hk]
    rfl
  rw [hmain, chainStep_filter]
  cases hg : getK k (buildById dp xs) with
  | none =>
    rw [hg] at hp
    rw [show (Option.toList (none : Option Post)) = [] from rfl] at hp
    rw [hp.eq_nil]
    rfl
  | some v =>
    rw [hg] at hp
    rw [show (Option.toList (some v)) = [v] from rfl] at hp
    rw [List.perm_singleton.1 hp]
    have hEk := hok (k, v) (getK_mem hg)
    have hne : k ≠ [] := hEk.1
    have hst : Stable k v := hEk.2
    show chainStep dp k none v = some v
    rw [chainStep, if_pos (canonicalId_of_stable hne hst)]
    show some ({ v with id := k } : Post) = some v
    rw [← hst.1, post_eta]

/-- Counterexample to C3 as stated: `postA` and `postB` share canonical id
`"1"` and the same instant but carry different urls; the two processing orders
retain different url fields, so the resulting canonical sets are not even
permutations of each other. -/
theorem C3_counterexample :
    ¬ (normalizePosts dpEx [postA, postB]).Perm (normalizePosts dpEx [postB, postA]) := by
  decide

/-- C3 amended: the identity-keyed reduction is grouping-invariant — merging a
prefix first and then the rest yields the same canonical set (a permutation of
the records of merging everything at once); full order-independence fails
because, for records sharing a canonical id, "first non-empty wins" on
optional fields depends on the processing order (see the counterexample). -/
theorem C3_amended_grouped_merge (dp : JStr → Option Int) (xs ys : List Post) :
    (normalizePosts dp (normalizePosts dp xs ++ ys)).Perm
      (normalizePosts dp (xs ++ ys)) := by
  have hsplit : ∀ A : List Post,
      buildById dp (A ++ ys) = ys.foldl (byIdStep dp) (buildById dp A) := by
    intro A
    rw [buildById, List.foldl_append]
    rfl
  have hmap : (buildById dp (normalizePosts dp xs ++ ys)).Perm (buildById dp (xs ++ ys)) := by
    apply alist_perm_of_getK (build_nodup dp _) (build_nodup dp _)
    intro k
    by_cases hk : k = []
    · subst hk
      rw [getK_eq_none.2 (build_keys_ne_nil dp _), getK_eq_none.2 (build_keys_ne_nil dp _)]
    · rw [hsplit, hsplit, getK_foldl_byIdStep dp hk, getK_foldl_byIdStep dp hk,
        getK_build_normalize dp xs hk]
  refine (jsSortBy_perm _ _).trans ?_
  refine (hmap.map Prod.snd).trans ?_
  exact (jsSortBy_perm _ _).symm

/-! ### Claim C6: hourly aggregation -/

theorem mergePost_timestamp (dp : JStr → Option Int) (e n : Post) :
    (mergePost dp e n).timestamp = n.timestamp ∨
      (mergePost dp e n).timestamp = e.timestamp := by
  cases hn : dp n.timestamp with
  | none => right; simp [mergePost, hn]
  | some ti =>
    cases he : dp e.timestamp with
    | none => left; simp [mergePost, hn, he]
    | some te =>
      by_cases hlt : te < ti
      · left; simp [mergePost, hn, he, hlt]
      · right; simp [mergePost, hn, he, hlt]

/-- Every timestamp stored in the map is the timestamp of some input record
(or of a record already in the accumulator). -/
theorem foldl_byIdStep_timestamp (dp : JStr → Option Int) :
    ∀ (l : List Post) (m : List (JStr × Post)), ∀ kv ∈ l.foldl (byIdStep dp) m,
      (∃ q ∈ l, kv.2.timestamp = q.timestamp) ∨
        ∃ kv' ∈ m, kv.2.timestamp = kv'.2.timestamp := by
  intro l
  induction l with
  | nil =>
    intro m kv h
    right
    exact ⟨kv, h, rfl⟩
  | cons p t ih =>
    intro m kv h
    rcases ih (byIdStep dp m p) kv h with ⟨q, hq, he⟩ | ⟨kv', hkv', he⟩
    · exact Or.inl ⟨q, List.mem_cons_of_mem _ hq, he⟩
    · by_cases hc : canonicalId p = []
      · rw [byIdStep, if_pos hc] at hkv'
        exact Or.inr ⟨kv', hkv', he⟩
      · cases hg : getK (canonicalId p) m with
        | none =>
          rw [byIdStep, if_neg hc, hg] at hkv'
          rcases mem_setK hkv' with rfl | hkv''
          · exact Or.inl ⟨p, List.mem_cons_self _ _, he⟩
          · exact Or.inr ⟨kv', hkv'', he⟩
        | some e =>
          rw [byIdStep, if_neg hc, hg] at hkv'
          rcases mem_setK hkv' with rfl | hkv''
          · rcases mergePost_timestamp dp e { p with id := canonicalId p } with hm | hm
            · exact Or.inl ⟨p, List.mem_cons_self _ _, he.trans hm⟩
            · exact Or.inr ⟨(canonicalId p, e), getK_mem hg, he.trans hm⟩
          · exact Or.inr ⟨kv', hkv'', he⟩

theorem normalizePosts_timestamp_mem (dp : JStr → Option Int) (xs : List Post) :
    ∀ p ∈ normalizePosts dp xs, ∃ q ∈ xs, p.timestamp = q.timestamp := by
  intro p hp
  have hv : p ∈ (buildById dp xs).map Prod.snd := (jsSortBy_perm _ _).mem_iff.1 hp
  obtain ⟨kv, hkv, hkveq⟩ := List.mem_map.1 hv
  rcases foldl_byIdStep_timestamp dp xs [] kv hkv with ⟨q, hq, he⟩ | ⟨kv', hkv', _⟩
  · exact ⟨q, hq, hkveq ▸ he⟩
  · simp at hkv'

/-- Running the bucket loop over posts whose hour keys all exist: the result
map's counts sum to the old sum plus the number of posts, keys stay nodup,
its keys are the old ones plus the posts' hour keys, and counts stay
positive. -/
theorem hourlyGo_ok (dp : JStr → Option Int) :
    ∀ (L : List Post) (m : List (Int × Nat)),
      (∀ p ∈ L, (toHourKey dp p.timestamp).isSome) →
      ∃ m', hourlyGo dp L m = .ok m' ∧
        (m'.map Prod.snd).sum = (m.map Prod.snd).sum + L.length ∧
        ((m.map Prod.fst).Nodup → (m'.map Prod.fst).Nodup) ∧
        (∀ h : Int, h ∈ m'.map Prod.fst ↔
          h ∈ m.map Prod.fst ∨ ∃ p ∈ L, toHourKey dp p.timestamp = some h) ∧
        ((∀ e ∈ m, 0 < e.2) → ∀ e ∈ m', 0 < e.2) := by
  intro L
  induction L with
  | nil =>
    intro m _
    exact ⟨m, rfl, by simp, id, by simp, fun h => h⟩
  | cons p t ih =>
    intro m hall
    obtain ⟨h, hh⟩ := Option.isSome_iff_exists.1 (hall p (List.mem_cons_self _ _))
    obtain ⟨m', hok, hsum, hnd, hmem, hpos⟩ :=
      ih (setK h ((getK h m).getD 0 + 1) m) fun q hq => hall q (List.mem_cons_of_mem _ hq)
    refine ⟨m', ?_, ?_, ?_, ?_, ?_⟩
    · show (match toHourKey dp p.timestamp with
        | none => Except.error ()
        | some h => hourlyGo dp t (setK h ((getK h m).getD 0 + 1) m)) = Except.ok m'
      rw [hh]
      exact hok
    · rw [hsum, sum_setK_bump]
      simp only [List.length_cons]
      omega
    · intro hnodup
      exact hnd (nodup_keys_setK _ _ hnodup)
    · intro h'
      rw [hmem h']
      simp only [mem_keys_setK, List.mem_cons]
      constructor
      · rintro ((rfl | hm) | ⟨q, hq, hq'⟩)
        · exact Or.inr ⟨p, Or.inl rfl, hh⟩
        · exact Or.inl hm
        · exact Or.inr ⟨q, Or.inr hq, hq'⟩
      · rintro (hm | ⟨q, (rfl | hq), hq'⟩)
        · exact Or.inl (Or.inr hm)
        · rw [hh] at hq'
          injection hq' with hq'
          exact Or.inl (Or.inl hq'.symm)
        · exact Or.inr ⟨q, hq, hq'⟩
    · intro hp0
      exact hpos (pos_setK_bump hp0)

/-- C6: on a post set whose timestamps all parse, `computeHourly` succeeds and
is a pure function of the set whose bucket counts sum to the size of the
normalized set, with exactly one bucket per distinct UTC-truncated hour that
contains at least one post (hours pairwise distinct and strictly ascending,
counts positive, and the bucket hours are exactly the truncated hours of the
normalized posts). -/
theorem C6_computeHourly_sums (dp : JStr → Option Int) (posts : List Post)
    (hall : ∀ p ∈ posts, (dp p.timestamp).isSome) :
    ∃ bs, computeHourly dp posts = .ok bs ∧
      (bs.map Bucket.count).sum = (normalizePosts dp posts).length ∧
      bs.Pairwise (fun a b => a.hour < b.hour) ∧
      (∀ h : Int, h ∈ bs.map Bucket.hour ↔
        ∃ p ∈ normalizePosts dp posts, toHourKey dp p.timestamp = some h) ∧
      ∀ b ∈ bs, 0 < b.count := by
  have hallN : ∀ p ∈ normalizePosts dp posts, (toHourKey dp p.timestamp).isSome := by
    intro p hp
    obtain ⟨q, hq, he⟩ := normalizePosts_timestamp_mem dp posts p hp
    obtain ⟨tq, htq⟩ := Option.isSome_iff_exists.1 (hall q hq)
    rw [toHourKey, he, htq]
    rfl
  obtain ⟨m', hok, hsum, hnd, hmem, hpos⟩ := hourlyGo_ok dp (normalizePosts dp posts) [] hallN
  have hperm : (jsSortBy ltBucket (m'.map fun e => ⟨e.1, e.2⟩)).Perm
      (m'.map fun e => (⟨e.1, e.2⟩ : Bucket)) := jsSortBy_perm _ _
  have hhours : (m'.map fun e => (⟨e.1, e.2⟩ : Bucket)).map Bucket.hour = m'.map Prod.fst := by
    rw [List.map_map]
    rfl
  refine ⟨jsSortBy ltBucket (m'.map fun e => ⟨e.1, e.2⟩), ?_, ?_, ?_, ?_, ?_⟩
  · rw [computeHourly, hok]
    rfl
  · rw [(hperm.map Bucket.count).sum_eq]
    have : (m'.map fun e => (⟨e.1, e.2⟩ : Bucket)).map Bucket.count = m'.map Prod.snd := by
      rw [List.map_map]
      rfl
    rw [this, hsum]
    simp
  · have hnodHours : ((jsSortBy ltBucket (m'.map fun e => ⟨e.1, e.2⟩)).map Bucket.hour).Nodup := by
      refine ((hperm.map Bucket.hour).nodup_iff).2 ?_
      rw [hhours]
      exact hnd (by simp)
    have hle : (jsSortBy ltBucket (m'.map fun e => ⟨e.1, e.2⟩)).Pairwise
        (fun a b => a.hour ≤ b.hour) := by
      refine (jsSortBy_done ltBucket cmpOk_ltBucket _).imp ?_
      intro a b hab
      simp only [ltBucket, decide_eq_false_iff_not, not_lt] at hab
      exact hab
    have hne : (jsSortBy ltBucket (m'.map fun e => ⟨e.1, e.2⟩)).Pairwise
        (fun a b => a.hour ≠ b.hour) := List.pairwise_map.1 hnodHours
    exact (hle.and hne).imp fun hab => lt_of_le_of_ne hab.1 hab.2
  · intro h
    have : h ∈ (jsSortBy ltBucket (m'.map fun e => ⟨e.1, e.2⟩)).map Bucket.hour ↔
        h ∈ m'.map Prod.fst := by
      rw [(hperm.map Bucket.hour).mem_iff, hhours]
    rw [this, hmem h]
    simp
  · intro b hb
    have hb' : b ∈ m'.map fun e => (⟨e.1, e.2⟩ : Bucket) := hperm.mem_iff.1 hb
    obtain ⟨e, he, heq⟩ := List.mem_map.1 hb'
    have := hpos (by simp) e he
    rw [← heq]
    exact this

/-- Witness for C6 at three concrete posts (two collide on id `"1"`), giving
buckets for hours 00:00 and 01:00 with one post each. -/
theorem C6_witness :
    (∀ p ∈ [postA, postA5, postC], (dpEx p.timestamp).isSome) ∧
      ∃ bs, computeHourly dpEx [postA, postA5, postC] = .ok bs ∧
        (bs.map Bucket.count).sum = (normalizePosts dpEx [postA, postA5, postC]).length ∧
        bs.Pairwise (fun a b => a.hour < b.hour) ∧
        (∀ h : Int, h ∈ bs.map Bucket.hour ↔
          ∃ p ∈ normalizePosts dpEx [postA, postA5, postC],
            toHourKey dpEx p.timestamp = some h) ∧
        ∀ b ∈ bs, 0 < b.count :=
  ⟨by decide, C6_computeHourly_sums dpEx [postA, postA5, postC] (by decide)⟩

/-! ### Claim C8: `computeLatest` -/

theorem foldl_byIdStep_ne_nil (dp : JStr → Option Int) :
    ∀ (l : List Post) (m : List (JStr × Post)), m ≠ [] →
      l.foldl (byIdStep dp) m ≠ [] := by
  intro l
  induction l with
  | nil => intro m hm; exact hm
  | cons p t ih =>
    intro m hm
    apply ih
    by_cases hc : canonicalId p = []
    · rwa [byIdStep, if_pos hc]
    · cases hg : getK (canonicalId p) m with
      | none =>
        rw [byIdStep, if_neg hc, hg]
        exact setK_ne_nil _ _ _
      | some e =>
        rw [byIdStep, if_neg hc, hg]
        exact setK_ne_nil _ _ _

/-- Folding the reducer of `computeLatest` from a current best `r` (with the
already-processed records split into strictly-earlier ones before `r` and
no-later ones after it) ends at the first-encountered maximum. -/
theorem latest_foldl_spec (dp : JStr → Option Int) :
    ∀ (rest : List Post) (r : Post) (l₁ l₂ : List Post) (tr : Int),
      dp r.timestamp = some tr →
      (∀ q ∈ l₁, ∀ tq, dp q.timestamp = some tq → tq < tr) →
      (∀ q ∈ l₂, ∀ tq, dp q.timestamp = some tq → tq ≤ tr) →
      (∀ q ∈ rest, (dp q.timestamp).isSome) →
      ∃ r' l₁' l₂' tr', rest.foldl (latestStep dp) (some r) = some r' ∧
        l₁ ++ r :: l₂ ++ rest = l₁' ++ r' :: l₂' ∧
        dp r'.timestamp = some tr' ∧
        (∀ q ∈ l₁', ∀ tq, dp q.timestamp = some tq → tq < tr') ∧
        (∀ q ∈ l₂', ∀ tq, dp q.timestamp = some tq → tq ≤ tr') := by
  intro rest
  induction rest with
  | nil =>
    intro r l₁ l₂ tr hr h1 h2 _
    exact ⟨r, l₁, l₂, tr, rfl, by simp, hr, h1, h2⟩
  | cons p t ih =>
    intro r l₁ l₂ tr hr h1 h2 hall
    obtain ⟨tp, htp⟩ := Option.isSome_iff_exists.1 (hall p (List.mem_cons_self _ _))
    by_cases hgt : tr < tp
    · have hstep : latestStep dp (some r) p = some p := by
        simp [latestStep, jsGtTs, htp, hr, hgt]
      have hpre : ∀ q ∈ l₁ ++ r :: l₂, ∀ tq, dp q.timestamp = some tq → tq < tp := by
        intro q hq tq htq
        rcases List.mem_append.1 hq with hq' | hq'
        · exact lt_trans (h1 q hq' tq htq) hgt
        · rcases List.mem_cons.1 hq' with rfl | hq''
          · rw [hr] at htq
            injection htq with htq
            omega
          · exact lt_of_le_of_lt (h2 q hq'' tq htq) hgt
      obtain ⟨r', l₁', l₂', tr', hfold, hsplit, hr', h1', h2'⟩ :=
        ih p (l₁ ++ r :: l₂) [] tp htp hpre (by simp)
          (fun q hq => hall q (List.mem_cons_of_mem _ hq))
      refine ⟨r', l₁', l₂', tr', by rw [List.foldl_cons, hstep]; exact hfold, ?_,
        hr', h1', h2'⟩
      simpa only [List.append_assoc, List.cons_append, List.nil_append] using hsplit
    · have hstep : latestStep dp (some r) p = some r := by
        simp [latestStep, jsGtTs, htp, hr, hgt]
      have hpost : ∀ q ∈ l₂ ++ [p], ∀ tq, dp q.timestamp = some tq → tq ≤ tr := by
        intro q hq tq htq
        rcases List.mem_append.1 hq with hq' | hq'
        · exact h2 q hq' tq htq
        · rcases List.mem_singleton.1 hq' with rfl
          rw [htp] at htq
          injection htq with htq
          omega
      obtain ⟨r', l₁', l₂', tr', hfold, hsplit, hr', h1', h2'⟩ :=
        ih r l₁ (l₂ ++ [p]) tr hr h1 hpost
          (fun q hq => hall q (List.mem_cons_of_mem _ hq))
      refine ⟨r', l₁', l₂', tr', by rw [List.foldl_cons, hstep]; exact hfold, ?_,
        hr', h1', h2'⟩
      simpa only [List.append_assoc, List.cons_append, List.nil_append] using hsplit

/-- C8: `computeLatest` on an empty set is `none`; on a nonempty set of valid
posts (timestamps parse, identities nonempty) it returns the element with the
maximum parsed timestamp, ties broken by the first-encountered one: the
normalized sequence splits into strictly-earlier records, the result, and
records no later than it. -/
theorem C8_computeLatest_max (dp : JStr → Option Int) (posts : List Post)
    (hall : ∀ p ∈ posts, (dp p.timestamp).isSome)
    (hids : ∀ p ∈ posts, canonicalId p ≠ []) :
    (posts = [] → computeLatest dp posts = none) ∧
      (posts ≠ [] → ∃ r l₁ l₂ tr, computeLatest dp posts = some r ∧
        normalizePosts dp posts = l₁ ++ r :: l₂ ∧
        dp r.timestamp = some tr ∧
        (∀ q ∈ l₁, ∀ tq, dp q.timestamp = some tq → tq < tr) ∧
        (∀ q ∈ l₂, ∀ tq, dp q.timestamp = some tq → tq ≤ tr)) := by
  constructor
  · rintro rfl
    rfl
  · intro hne
    have hb : buildById dp posts ≠ [] := by
      cases posts with
      | nil => exact absurd rfl hne
      | cons p rest =>
        show rest.foldl (byIdStep dp) (byIdStep dp [] p) ≠ []
        apply foldl_byIdStep_ne_nil
        rw [byIdStep, if_neg (hids p (List.mem_cons_self _ _))]
        exact setK_ne_nil _ _ _
    have hnn : normalizePosts dp posts ≠ [] := by
      intro h0
      have hperm : (normalizePosts dp posts).Perm ((buildById dp posts).map Prod.snd) :=
        jsSortBy_perm _ _
      rw [h0] at hperm
      have := hperm.nil_eq
      cases hv : (buildById dp posts) with
      | nil => exact hb hv
      | cons kv t =>
        rw [hv] at this
        simp at this
    have hallN : ∀ p ∈ normalizePosts dp posts, (dp p.timestamp).isSome := by
      intro p hp
      obtain ⟨q, hq, he⟩ := normalizePosts_timestamp_mem dp posts p hp
      rw [he]
      exact hall q hq
    cases hN : normalizePosts dp posts with
    | nil => exact absurd hN hnn
    | cons p₀ rest =>
      rw [hN] at hallN
      obtain ⟨t0, ht0⟩ := Option.isSome_iff_exists.1 (hallN p₀ (List.mem_cons_self _ _))
      obtain ⟨r, l₁, l₂, tr, hfold, hsplit, hr, h1, h2⟩ :=
        latest_foldl_spec dp rest p₀ [] [] t0 ht0 (by simp) (by simp)
          (fun q hq => hallN q (List.mem_cons_of_mem _ hq))
      refine ⟨r, l₁, l₂, tr, ?_, ?_, hr, h1, h2⟩
      · show (if (normalizePosts dp posts).isEmpty then none
          else (normalizePosts dp posts).foldl (latestStep dp) none) = some r
        rw [hN]
        show rest.foldl (latestStep dp) (some p₀) = some r
        exact hfold
      · simpa using hsplit

/-- Witness for C8: the empty set gives `none`; on three concrete posts the
maximum (`postC`, one hour later) is returned with the matching split. -/
theorem C8_witness :
    computeLatest dpEx [] = none ∧
      ∃ r l₁ l₂ tr, computeLatest dpEx [postA, postC, postA5] = some r ∧
        normalizePosts dpEx [postA, postC, postA5] = l₁ ++ r :: l₂ ∧
        dpEx r.timestamp = some tr ∧
        (∀ q ∈ l₁, ∀ tq, dpEx q.timestamp = some tq → tq < tr) ∧
        (∀ q ∈ l₂, ∀ tq, dpEx q.timestamp = some tq → tq ≤ tr) :=
  ⟨(C8_computeLatest_max dpEx [] (by simp) (by simp)).1 rfl,
    (C8_computeLatest_max dpEx [postA, postC, postA5] (by decide) (by decide)).2
      (by decide)⟩

/-! ### Claim C1: decoder totality (code bug) -/

/-- C1 fails on the code: `parseStatusList` computes
`new Date(timestamp).toISOString()` *before* its `Number.isNaN(Date.parse(iso))`
guard, so a payload containing an item whose `created_at` is present but
unparseable makes the decoder throw a `RangeError` — the well-formed items are
lost too, instead of the bad item being excluded.  The same pattern appears in
`parseFeed` (src/index.js:69).  The dead guard on the next line shows the
intended behavior is the one the claim states.  This theorem evaluates the
decoder at the failing input, and at the same payload without the bad item
(showing the intent succeeds there). -/
theorem C1_parseStatusList_throws_on_bad_timestamp :
    parseStatusList dpEx toISOEx
        (some [{ created_at := some (jstr "2024-01-01T00:00:00.000Z"),
                 id := some (jstr "123"), url := none, uri := none, content := none },
               { created_at := some (jstr "not-a-date"),
                 id := some (jstr "456"), url := none, uri := none, content := none }])
      = .error () ∧
    parseStatusList dpEx toISOEx
        (some [{ created_at := some (jstr "2024-01-01T00:00:00.000Z"),
                 id := some (jstr "123"), url := none, uri := none, content := none }])
      = .ok [{ id := jstr "123", timestamp := jstr "2024-01-01T00:00:00.000Z",
               url := [], uri := [], content := [] }] := by
  constructor
  · rfl
  · rfl

/-! ### Claim C2: rate-limit behavior (corrected) -/

/-- Counterexample to C2 as stated: the server's `fetchStatusPages` aborts on
*every* non-success status — a 429 response throws
`Feed request failed: 429` instead of sleeping and retrying the page. -/
theorem C2_counterexample :
    fetchStatusPages dpEx toISOEx 0 86400000 5
        [{ status := 429, contentTypeJson := true, payload := .ok (some []),
           linkNext := none }] 0 true []
      = .error "Feed request failed: 429" := rfl

/-- C2 amended: in the one-shot CSV-export loop, a 429 response sleeps
`max(currentDelay, retryAfterSeconds*1000)` milliseconds, multiplies the
backoff delay by the backoff factor (rounded up) capped at the configured
maximum, and leaves `pageUrl`, the page counter and the collected rows
untouched (the same page is retried); any other non-success status aborts the
run with an error; and any successful page resets the delay to its base value
and advances the page counter.  (The server's `fetchStatusPages` has no such
path: it aborts on 429 as well — see the counterexample.) -/
theorem C2_amended_cli_backoff (cfg : CliConfig) (dp : JStr → Option Int)
    (r : CliResponse) (st : CliState) :
    (r.status = 429 →
      cliStep cfg dp r st = .ok { st with
        sleeps := st.sleeps ++ [max st.currentDelay (retryAfterMs r.retryAfter)],
        currentDelay := min ((⌈st.currentDelay * cliFactor cfg⌉ : ℤ) : ℚ)
          (cliMaxDelay cfg) }) ∧
    (¬(200 ≤ r.status ∧ r.status < 300) → r.status ≠ 429 →
      ∃ e, cliStep cfg dp r st = .error e) ∧
    (200 ≤ r.status → r.status < 300 → ∀ pl, r.payload = .ok pl →
      ∃ st', cliStep cfg dp r st = .ok st' ∧ st'.currentDelay = cfg.delayMs ∧
        st'.page = st.page + 1) := by
  refine ⟨?_, ?_, ?_⟩
  · intro h429
    have hok : respOk 429 = false := rfl
    simp [cliStep, h429, hok]
  · intro hnot hne429
    have hok : respOk r.status = false := by
      by_cases hlo : 200 ≤ r.status
      · have hhi : ¬ r.status < 300 := fun hhi => hnot ⟨hlo, hhi⟩
        simp [respOk, hhi]
      · simp [respOk, hlo]
    exact ⟨"Request failed (" ++ toString r.status ++ ") for " ++ String.mk st.pageUrl,
      by simp [cliStep, hok, hne429]⟩
  · intro hlo hhi pl hpl
    have hok : respOk r.status = true := by simp [respOk, hlo, hhi]
    cases pl with
    | none =>
      exact ⟨{ st with page := st.page + 1, currentDelay := cfg.delayMs, done := true },
        by simp [cliStep, hok, hpl], rfl, rfl⟩
    | some items =>
      cases items with
      | nil =>
        exact ⟨{ st with page := st.page + 1, currentDelay := cfg.delayMs, done := true },
          by simp [cliStep, hok, hpl], rfl, rfl⟩
      | cons x xs =>
        rcases hci : cliItems dp cfg.cutoffMs (x :: xs) st.seenIds st.rows false with
          ⟨seen', rows', keep⟩
        cases keep with
        | true =>
          by_cases hdel : 0 < cfg.delayMs
          · refine ⟨{ pageUrl := r.linkNext.getD [],
                      page := st.page + 1,
                      seenIds := seen',
                      currentDelay := cfg.delayMs,
                      rows := rows',
                      sleeps := st.sleeps ++ [cfg.delayMs],
                      done := st.done }, ?_, rfl, rfl⟩
            simp [cliStep, hok, hpl, hci, hdel]
          · refine ⟨{ pageUrl := r.linkNext.getD [],
                      page := st.page + 1,
                      seenIds := seen',
                      currentDelay := cfg.delayMs,
                      rows := rows',
                      sleeps := st.sleeps,
                      done := st.done }, ?_, rfl, rfl⟩
            simp [cliStep, hok, hpl, hci, hdel]
        | false =>
          refine ⟨{ pageUrl := r.linkNext.getD [],
                    page := st.page + 1,
                    seenIds := seen',
                    currentDelay := cfg.delayMs,
                    rows := rows',
                    sleeps := st.sleeps,
                    done := true }, ?_, rfl, rfl⟩
          simp [cliStep, hok, hpl, hci]

/-- Witness for C2 at the CLI defaults: a 429 with `Retry-After: 2` sleeps
2000 ms and raises the delay to 1125 ms; a 500 aborts; a 200 page resets the
delay to 750 ms. -/
theorem C2_witness :
    cliStep cfgEx dpEx resp429 stEx = .ok { stEx with
        sleeps := stEx.sleeps ++ [max stEx.currentDelay (retryAfterMs resp429.retryAfter)],
        currentDelay := min ((⌈stEx.currentDelay * cliFactor cfgEx⌉ : ℤ) : ℚ)
          (cliMaxDelay cfgEx) } ∧
      (∃ e, cliStep cfgEx dpEx resp500 stEx = .error e) ∧
      ∃ st', cliStep cfgEx dpEx resp200 stEx = .ok st' ∧
        st'.currentDelay = cfgEx.delayMs ∧ st'.page = stEx.page + 1 :=
  ⟨(C2_amended_cli_backoff cfgEx dpEx resp429 stEx).1 rfl,
    (C2_amended_cli_backoff cfgEx dpEx resp500 stEx).2.1 (by decide) (by decide),
    (C2_amended_cli_backoff cfgEx dpEx resp200 stEx).2.2 (by decide) (by decide)
      (some []) rfl⟩

end TS
